import Mathlib

/-
Verification of the mark-and-sweep garbage collector in pin/gc/gc.go.

Shallow embedding conventions:
- A Key is the hash component of a content identifier.  The collector only
  handles v0-style identifiers, where the identifier is exactly its hash, so
  the embedding identifies Cid and Key with Nat and key extraction (the Go
  expression key.Key(c.Hash())) with the identity function cidKey.
- The DAG service (node fetch) is a finite association list from Cid to Node;
  a failed lookup models a fetch error (ds.Get returning an error).
- The mutable key set (key.KeySet) is a Finset Key threaded through the
  traversal functions; Go's in-place mutation becomes explicit state passing,
  and a function that can fail returns the set it built so far together with
  an Option GErr (none = success), matching the fact that the Go code mutates
  the caller's set even on the error paths.
- The recursion in EnumerateChildren is bounded by explicit fuel; running out
  of fuel is reported as the distinguished error GErr.fuelOut, and adequacy
  theorems show that fuel larger than the number of stored nodes is never
  exhausted, which is the termination argument of the Go code.
- The sweep goroutine of GC is modelled as a function from the enumerated key
  list to the list of emitted keys and the list of deleted keys.  Context
  cancellation is modelled by an optional time cancelAt: the two select
  statements of the sweep loop poll the context at successive instants, and
  the context counts as done at every instant from cancelAt on.
-/

set_option maxHeartbeats 1000000

abbrev Key := Nat

abbrev Cid := Nat

/-- The Go expression key.Key(c.Hash()): extract the key of a content
identifier.  With v0 identifiers the identifier is its hash. -/
def cidKey (c : Cid) : Key := c

/-- A fetched and decoded block, exposing the identifiers it links to. -/
structure Node where
  links : List Cid
deriving DecidableEq

/-- The local DAG service: a finite table of fetchable nodes. -/
structure DAG where
  entries : List (Cid × Node)
deriving DecidableEq

/-- ds.Get: fetch the node stored for an identifier; none models a fetch
error (for instance, block not present in local storage). -/
def DAG.get (dag : DAG) (c : Cid) : Option Node :=
  (dag.entries.find? (fun p => p.1 == c)).map (fun p => p.2)

/-- Errors of the embedding: a failed node fetch, exhausted traversal fuel
(never reached with adequate fuel), and a failed AllKeysChan call. -/
inductive GErr where
  | notFound
  | fuelOut
  | enumFail
deriving DecidableEq

/-- Modelled from the spec: merkledag.EnumerateChildren is not under src/.
Per the spec it enumerates the children of a node and, for each child key,
asks a visitor whether to descend; the visitor supplied by gc.go (inlined
here, it is the closure at src/pin/gc/gc.go lines 83-91) answers false when
the key is already in the set and otherwise adds it and answers true.  On a
descent the child node is fetched; per the spec a fetch failure is swallowed
and traversal continues with the siblings when bestEffort is true, and aborts
the whole call when bestEffort is false.  The fuel argument bounds the
recursion depth. -/
def EnumerateChildren (dag : DAG) (bestEffort : Bool) :
    Nat → Finset Key → List Cid → Finset Key × Option GErr
  | _, set, [] => (set, none)
  | fuel, set, c :: rest =>
    if cidKey c ∈ set then
      EnumerateChildren dag bestEffort fuel set rest
    else
      let set1 := insert (cidKey c) set
      match dag.get c with
      | none =>
        if bestEffort then EnumerateChildren dag bestEffort fuel set1 rest
        else (set1, some GErr.notFound)
      | some nd =>
        match fuel with
        | 0 => (set1, some GErr.fuelOut)
        | fuel' + 1 =>
          match EnumerateChildren dag bestEffort fuel' set1 nd.links with
          | (set2, some e) => (set2, some e)
          | (set2, none) => EnumerateChildren dag bestEffort (fuel' + 1) set2 rest
termination_by fuel _ links => (fuel, links.length)

/-- src/pin/gc/gc.go Descendants: for each root, add its key to the set,
fetch its node (an error aborts regardless of bestEffort), and enumerate its
children into the set. -/
def Descendants (dag : DAG) (fuel : Nat) (set : Finset Key) (roots : List Cid)
    (bestEffort : Bool) : Finset Key × Option GErr :=
  match roots with
  | [] => (set, none)
  | c :: rest =>
    let set1 := insert (cidKey c) set
    match dag.get c with
    | none => (set1, some GErr.notFound)
    | some nd =>
      match EnumerateChildren dag bestEffort fuel set1 nd.links with
      | (set2, some e) => (set2, some e)
      | (set2, none) => Descendants dag fuel set2 rest bestEffort

/-- The pin registry snapshot consumed by ColoredSet. -/
structure Pinner where
  recursiveKeys : List Cid
  directKeys : List Cid
  internalPins : List Cid

/-- src/pin/gc/gc.go ColoredSet: strict closure of the recursive pins, then
tolerant closure of the best-effort roots, then the direct keys with no
descent, then strict closure of the internal pins; the first error aborts. -/
def ColoredSet (pn : Pinner) (dag : DAG) (fuel : Nat)
    (bestEffortRoots : List Cid) : Except GErr (Finset Key) :=
  match Descendants dag fuel ∅ pn.recursiveKeys false with
  | (_, some e) => Except.error e
  | (s1, none) =>
    match Descendants dag fuel s1 bestEffortRoots true with
    | (_, some e) => Except.error e
    | (s2, none) =>
      let s3 := pn.directKeys.foldl (fun s k => insert (cidKey k) s) s2
      match Descendants dag fuel s3 pn.internalPins false with
      | (_, some e) => Except.error e
      | (s4, none) => Except.ok s4

/-- Whether the context is done at instant t, for a context cancelled at
instant cancelAt (none = never cancelled).  Monotone in t by construction. -/
def isCancelledAt (cancelAt : Option Nat) (t : Nat) : Bool :=
  match cancelAt with
  | none => false
  | some n => decide (n ≤ t)

/-- The sweep goroutine of src/pin/gc/gc.go GC (lines 44-69), as a function
of the enumerated key list.  Returns (emitted keys, deleted keys), in order.
Each loop iteration polls the context at instant t (the outer select); a key
absent from the live set is deleted, and the handoff to the consumer polls
the context again at instant t+1 (the inner select), so cancellation between
the deletion and the emission deletes the key without emitting it.  A failed
deletion (k in failKeys) stops the sweep at once, deleting and emitting
nothing further, the failing key included. -/
def sweepGo (gcs : Finset Key) (failKeys : List Key) (cancelAt : Option Nat) :
    Nat → List Key → List Key × List Key
  | _, [] => ([], [])
  | t, k :: rest =>
    if isCancelledAt cancelAt t then ([], [])
    else if k ∈ gcs then sweepGo gcs failKeys cancelAt (t + 1) rest
    else if k ∈ failKeys then ([], [])
    else if isCancelledAt cancelAt (t + 1) then ([], [k])
    else
      match sweepGo gcs failKeys cancelAt (t + 2) rest with
      | (out, del) => (k :: out, k :: del)

/-- The GC blockstore: its key population in enumeration order, the keys
whose DeleteBlock call fails, and whether AllKeysChan fails. -/
structure BState where
  store : List Key
  failKeys : List Key
  allKeysFail : Bool

/-- Observable outcome of one GC pass.  outputProduced records whether a
non-nil output channel was returned; outputClosed whether that channel was
closed; lockReleased whether unlocker.Unlock() ran.  finalStore is the key
population after the pass and deleted the keys physically removed. -/
structure GCResult where
  err : Option GErr
  outputProduced : Bool
  output : List Key
  outputClosed : Bool
  deleted : List Key
  finalStore : List Key
  lockReleased : Bool
deriving DecidableEq

/-- src/pin/gc/gc.go GC: take the GC lock, build the coloured set, start the
key enumeration, and run the sweep goroutine.  Unlock and channel close are
deferred inside the goroutine only, so the two early error returns leave the
lock held (lockReleased = false) and produce no output channel. -/
def GC (bs : BState) (pn : Pinner) (dag : DAG) (bestEffortRoots : List Cid)
    (cancelAt : Option Nat) (fuel : Nat) : GCResult :=
  match ColoredSet pn dag fuel bestEffortRoots with
  | Except.error e =>
    { err := some e, outputProduced := false, output := [],
      outputClosed := false, deleted := [], finalStore := bs.store,
      lockReleased := false }
  | Except.ok gcs =>
    if bs.allKeysFail then
      { err := some GErr.enumFail, outputProduced := false, output := [],
        outputClosed := false, deleted := [], finalStore := bs.store,
        lockReleased := false }
    else
      match sweepGo gcs bs.failKeys cancelAt 0 bs.store with
      | (out, del) =>
        { err := none, outputProduced := true, output := out,
          outputClosed := true, deleted := del,
          finalStore := bs.store.filter (fun k => decide (k ∉ del)),
          lockReleased := true }

/-- One link step of the stored DAG: b is a child of the node stored at a. -/
def childRel (dag : DAG) (a b : Cid) : Prop :=
  ∃ nd, dag.get a = some nd ∧ b ∈ nd.links

/-- k is reachable from one of the roots through stored links. -/
def ReachKey (dag : DAG) (roots : List Cid) (k : Key) : Prop :=
  ∃ r ∈ roots, Relation.ReflTransGen (childRel dag) r k

/-- The identifiers that have a stored node. -/
def dagDom (dag : DAG) : Finset Cid :=
  (dag.entries.map (fun p => p.1)).toFinset

/-- Every link of every stored node is itself fetchable. -/
def ClosedDag (dag : DAG) : Prop :=
  ∀ p ∈ dag.entries, ∀ l ∈ p.2.links, (dag.get l).isSome

def dagAB : DAG := ⟨[(1, ⟨[2]⟩), (2, ⟨[1]⟩)]⟩

def dagLine : DAG := ⟨[(1, ⟨[2]⟩), (2, ⟨[]⟩)]⟩

def dagSolo : DAG := ⟨[(1, ⟨[]⟩)]⟩

instance (dag : DAG) : Decidable (ClosedDag dag) :=
  inferInstanceAs (Decidable (∀ p ∈ dag.entries, ∀ l ∈ p.2.links, (dag.get l).isSome))

instance {e a : Type} [DecidableEq e] [DecidableEq a] : DecidableEq (Except e a) := fun x y =>
  match x, y with
  | Except.ok u, Except.ok v =>
    if h : u = v then isTrue (by rw [h]) else isFalse (by simp [h])
  | Except.error u, Except.error v =>
    if h : u = v then isTrue (by rw [h]) else isFalse (by simp [h])
  | Except.ok _, Except.error _ => isFalse (by simp)
  | Except.error _, Except.ok _ => isFalse (by simp)

theorem enum_mono (dag : DAG) (be : Bool) (fuel : Nat) (set : Finset Key) (L : List Cid) :
    set ⊆ (EnumerateChildren dag be fuel set L).1 := by
  induction fuel, set, L using EnumerateChildren.induct dag be with
  | case1 fuel set => simp [EnumerateChildren]
  | case2 fuel set c rest h ih =>
    rw [EnumerateChildren]; simp only [if_pos h]; exact ih
  | case3 fuel set c rest h set1 hget hbe =>
    rename_i ih
    subst hbe
    have ih' : insert (cidKey c) set ⊆
        (EnumerateChildren dag true fuel (insert (cidKey c) set) rest).1 := ih
    rw [EnumerateChildren]
    simp only [if_neg h, hget, if_true]
    exact (Finset.subset_insert _ _).trans ih'
  | case4 fuel set c rest h hget hbe =>
    rw [EnumerateChildren]
    simp only [if_neg h, hget, if_neg hbe]
    exact Finset.subset_insert _ _
  | case5 set c rest h nd hget =>
    rw [EnumerateChildren]
    simp only [if_neg h, hget]
    exact Finset.subset_insert _ _
  | case6 set c rest h set1 nd hget fuel' set2 e henum =>
    rename_i ihl
    have henum' : EnumerateChildren dag be fuel' (insert (cidKey c) set) nd.links
        = (set2, some e) := henum
    have ihl' : insert (cidKey c) set ⊆
        (EnumerateChildren dag be fuel' (insert (cidKey c) set) nd.links).1 := ihl
    rw [EnumerateChildren]
    simp only [if_neg h, hget, henum']
    rw [henum'] at ihl'
    exact (Finset.subset_insert _ _).trans ihl'
  | case7 set c rest h set1 nd hget fuel' set2 henum ihl =>
    rename_i ihr
    have henum' : EnumerateChildren dag be fuel' (insert (cidKey c) set) nd.links
        = (set2, none) := henum
    have ihl' : insert (cidKey c) set ⊆
        (EnumerateChildren dag be fuel' (insert (cidKey c) set) nd.links).1 := ihl
    rw [EnumerateChildren]
    simp only [if_neg h, hget, henum']
    rw [henum'] at ihl'
    exact ((Finset.subset_insert _ _).trans ihl').trans ihr

theorem desc_mono (dag : DAG) (fuel : Nat) (set : Finset Key) (roots : List Cid) (be : Bool) :
    set ⊆ (Descendants dag fuel set roots be).1 := by
  induction set, roots, be using Descendants.induct dag fuel with
  | case1 set be => simp [Descendants]
  | case2 set be c rest hget =>
    rw [Descendants]
    simp only [hget]
    exact Finset.subset_insert _ _
  | case3 set be c rest set1 nd hget set2 e =>
    rename_i henum
    have henum' : EnumerateChildren dag be fuel (insert (cidKey c) set) nd.links
        = (set2, some e) := henum
    rw [Descendants]
    simp only [hget, henum']
    have h1 := enum_mono dag be fuel (insert (cidKey c) set) nd.links
    rw [henum'] at h1
    exact (Finset.subset_insert _ _).trans h1
  | case4 set be c rest set1 nd hget set2 henum =>
    rename_i ih
    have henum' : EnumerateChildren dag be fuel (insert (cidKey c) set) nd.links
        = (set2, none) := henum
    rw [Descendants]
    simp only [hget, henum']
    have h1 := enum_mono dag be fuel (insert (cidKey c) set) nd.links
    rw [henum'] at h1
    exact ((Finset.subset_insert _ _).trans h1).trans ih

theorem fold_insert_mono (set : Finset Key) (l : List Cid) :
    set ⊆ l.foldl (fun s k => insert (cidKey k) s) set := by
  induction l generalizing set with
  | nil => simp
  | cons c rest ih =>
    simp only [List.foldl_cons]
    exact (Finset.subset_insert _ _).trans (ih (insert (cidKey c) set))

theorem enum_sound (dag : DAG) (be : Bool) (fuel : Nat) (set : Finset Key) (L : List Cid) :
    ∀ k ∈ (EnumerateChildren dag be fuel set L).1,
      k ∈ set ∨ ∃ c ∈ L, Relation.ReflTransGen (childRel dag) c k := by
  induction fuel, set, L using EnumerateChildren.induct dag be with
  | case1 fuel set =>
    intro k hk; simp [EnumerateChildren] at hk; exact Or.inl hk
  | case2 fuel set c rest h ih =>
    intro k hk
    rw [EnumerateChildren] at hk; simp only [if_pos h] at hk
    rcases ih k hk with h1 | ⟨c1, hc1, hr⟩
    · exact Or.inl h1
    · exact Or.inr ⟨c1, List.mem_cons_of_mem _ hc1, hr⟩
  | case3 fuel set c rest h set1 hget hbe =>
    rename_i ih
    intro k hk
    subst hbe
    have ih' : ∀ k ∈ (EnumerateChildren dag true fuel (insert (cidKey c) set) rest).1,
        k ∈ insert (cidKey c) set ∨ ∃ c1 ∈ rest, Relation.ReflTransGen (childRel dag) c1 k := ih
    rw [EnumerateChildren] at hk
    simp only [if_neg h, hget, if_true] at hk
    rcases ih' k hk with h1 | ⟨c1, hc1, hr⟩
    · rcases Finset.mem_insert.mp h1 with h2 | h2
      · exact Or.inr ⟨c, List.mem_cons_self _ _, h2 ▸ Relation.ReflTransGen.refl⟩
      · exact Or.inl h2
    · exact Or.inr ⟨c1, List.mem_cons_of_mem _ hc1, hr⟩
  | case4 fuel set c rest h hget hbe =>
    intro k hk
    rw [EnumerateChildren] at hk
    simp only [if_neg h, hget, if_neg hbe] at hk
    rcases Finset.mem_insert.mp hk with h2 | h2
    · exact Or.inr ⟨c, List.mem_cons_self _ _, h2 ▸ Relation.ReflTransGen.refl⟩
    · exact Or.inl h2
  | case5 set c rest h nd hget =>
    intro k hk
    rw [EnumerateChildren] at hk
    simp only [if_neg h, hget] at hk
    rcases Finset.mem_insert.mp hk with h2 | h2
    · exact Or.inr ⟨c, List.mem_cons_self _ _, h2 ▸ Relation.ReflTransGen.refl⟩
    · exact Or.inl h2
  | case6 set c rest h set1 nd hget fuel' set2 e =>
    rename_i henum ihl
    intro k hk
    have henum' : EnumerateChildren dag be fuel' (insert (cidKey c) set) nd.links
        = (set2, some e) := henum
    have ihl' : ∀ k ∈ (EnumerateChildren dag be fuel' (insert (cidKey c) set) nd.links).1,
        k ∈ insert (cidKey c) set ∨ ∃ c1 ∈ nd.links, Relation.ReflTransGen (childRel dag) c1 k := ihl
    rw [EnumerateChildren] at hk
    simp only [if_neg h, hget, henum'] at hk
    rw [henum'] at ihl'
    rcases ihl' k hk with h1 | ⟨c1, hc1, hr⟩
    · rcases Finset.mem_insert.mp h1 with h2 | h2
      · exact Or.inr ⟨c, List.mem_cons_self _ _, h2 ▸ Relation.ReflTransGen.refl⟩
      · exact Or.inl h2
    · exact Or.inr ⟨c, List.mem_cons_self _ _,
        Relation.ReflTransGen.head ⟨nd, hget, hc1⟩ hr⟩
  | case7 set c rest h set1 nd hget fuel' set2 henum ihl =>
    rename_i ihr
    intro k hk
    have henum' : EnumerateChildren dag be fuel' (insert (cidKey c) set) nd.links
        = (set2, none) := henum
    have ihl' : ∀ k ∈ (EnumerateChildren dag be fuel' (insert (cidKey c) set) nd.links).1,
        k ∈ insert (cidKey c) set ∨ ∃ c1 ∈ nd.links, Relation.ReflTransGen (childRel dag) c1 k := ihl
    rw [EnumerateChildren] at hk
    simp only [if_neg h, hget, henum'] at hk
    rw [henum'] at ihl'
    rcases ihr k hk with h1 | ⟨c1, hc1, hr⟩
    · rcases ihl' k h1 with h2 | ⟨c1, hc1, hr⟩
      · rcases Finset.mem_insert.mp h2 with h3 | h3
        · exact Or.inr ⟨c, List.mem_cons_self _ _, h3 ▸ Relation.ReflTransGen.refl⟩
        · exact Or.inl h3
      · exact Or.inr ⟨c, List.mem_cons_self _ _,
          Relation.ReflTransGen.head ⟨nd, hget, hc1⟩ hr⟩
    · exact Or.inr ⟨c1, List.mem_cons_of_mem _ hc1, hr⟩

theorem desc_sound (dag : DAG) (fuel : Nat) : ∀ (roots : List Cid) (set : Finset Key) (be : Bool),
    ∀ k ∈ (Descendants dag fuel set roots be).1, k ∈ set ∨ ReachKey dag roots k := by
  intro roots
  induction roots with
  | nil => intro set be k hk; simp [Descendants] at hk; exact Or.inl hk
  | cons c rest ih =>
    intro set be k hk
    rw [Descendants] at hk
    cases hget : dag.get c with
    | none =>
      simp only [hget] at hk
      rcases Finset.mem_insert.mp hk with h2 | h2
      · exact Or.inr ⟨c, List.mem_cons_self _ _, h2 ▸ Relation.ReflTransGen.refl⟩
      · exact Or.inl h2
    | some nd =>
      simp only [hget] at hk
      rcases h2 : EnumerateChildren dag be fuel (insert (cidKey c) set) nd.links
        with ⟨set2, oe⟩
      have hsound := enum_sound dag be fuel (insert (cidKey c) set) nd.links
      rw [h2] at hsound hk
      have fromSet2 : k ∈ set2 → k ∈ set ∨ ReachKey dag (c :: rest) k := by
        intro hk2
        rcases hsound k hk2 with h3 | ⟨c1, hc1, hr⟩
        · rcases Finset.mem_insert.mp h3 with h4 | h4
          · exact Or.inr ⟨c, List.mem_cons_self _ _, h4 ▸ Relation.ReflTransGen.refl⟩
          · exact Or.inl h4
        · exact Or.inr ⟨c, List.mem_cons_self _ _,
            Relation.ReflTransGen.head ⟨nd, hget, hc1⟩ hr⟩
      cases oe with
      | some e => exact fromSet2 hk
      | none =>
        rcases ih set2 be k hk with h3 | ⟨c1, hc1, hr⟩
        · exact fromSet2 h3
        · exact Or.inr ⟨c1, List.mem_cons_of_mem _ hc1, hr⟩

theorem enum_strict (dag : DAG) : ∀ (fuel : Nat) (set : Finset Key) (L : List Cid),
    ∀ S : Finset Key, EnumerateChildren dag false fuel set L = (S, none) →
    ((∀ c ∈ L, cidKey c ∈ S) ∧
     ∀ k ∈ S, k ∉ set → ∃ nd, dag.get k = some nd ∧ ∀ l ∈ nd.links, cidKey l ∈ S) := by
  intro fuel set L
  induction fuel, set, L using EnumerateChildren.induct dag false with
  | case1 fuel set =>
    intro S hS
    rw [EnumerateChildren] at hS
    obtain ⟨rfl, -⟩ := Prod.mk.injEq .. ▸ hS
    exact ⟨by simp, fun k hk hk2 => absurd hk hk2⟩
  | case2 fuel set c rest h ih =>
    intro S hS
    rw [EnumerateChildren] at hS
    simp only [if_pos h] at hS
    have hmono := enum_mono dag false fuel set rest
    rw [hS] at hmono
    obtain ⟨h1, h2⟩ := ih S hS
    refine ⟨fun c1 hc1 => ?_, h2⟩
    rcases List.mem_cons.mp hc1 with h3 | h3
    · exact hmono (h3 ▸ h)
    · exact h1 c1 h3
  | case3 fuel set c rest h set1 hget hbe =>
    simp at hbe
  | case4 fuel set c rest h hget hbe =>
    intro S hS
    rw [EnumerateChildren] at hS
    simp only [if_neg h, hget, if_neg hbe] at hS
    simp at hS
  | case5 set c rest h nd hget =>
    intro S hS
    rw [EnumerateChildren] at hS
    simp only [if_neg h, hget] at hS
    simp at hS
  | case6 set c rest h set1 nd hget fuel' set2 e =>
    rename_i henum ihl
    intro S hS
    have henum' : EnumerateChildren dag false fuel' (insert (cidKey c) set) nd.links
        = (set2, some e) := henum
    rw [EnumerateChildren] at hS
    simp only [if_neg h, hget, henum'] at hS
    simp at hS
  | case7 set c rest h set1 nd hget fuel' set2 henum ihl =>
    rename_i ihr
    intro S hS
    have henum' : EnumerateChildren dag false fuel' (insert (cidKey c) set) nd.links
        = (set2, none) := henum
    have ihl' := fun S h => ihl S h
    have hS' : EnumerateChildren dag false (fuel' + 1) set2 rest = (S, none) := by
      rw [EnumerateChildren] at hS
      simpa only [if_neg h, hget, henum'] using hS
    obtain ⟨el, ecl⟩ := ihl' set2 henum'
    obtain ⟨rl, rcl⟩ := ihr S hS'
    have hmono2 : set2 ⊆ S := by
      have := enum_mono dag false (fuel' + 1) set2 rest
      rw [hS'] at this; exact this
    have hmono1 : insert (cidKey c) set ⊆ set2 := by
      have := enum_mono dag false fuel' (insert (cidKey c) set) nd.links
      rw [henum'] at this; exact this
    constructor
    · intro c1 hc1
      rcases List.mem_cons.mp hc1 with h3 | h3
      · exact hmono2 (hmono1 (h3 ▸ Finset.mem_insert_self _ _))
      · exact rl c1 h3
    · intro k hkS hkset
      by_cases hk2 : k ∈ set2
      · by_cases hk1 : k ∈ insert (cidKey c) set
        · have hkc : k = cidKey c := by
            rcases Finset.mem_insert.mp hk1 with h3 | h3
            · exact h3
            · exact absurd h3 hkset
          subst hkc
          exact ⟨nd, hget, fun l hl => hmono2 (el l hl)⟩
        · obtain ⟨nd1, hg1, hl1⟩ := ecl k hk2 hk1
          exact ⟨nd1, hg1, fun l hl => hmono2 (hl1 l hl)⟩
      · exact rcl k hkS hk2

theorem desc_strict (dag : DAG) (fuel : Nat) : ∀ (roots : List Cid) (set : Finset Key),
    ∀ S : Finset Key, Descendants dag fuel set roots false = (S, none) →
    ((∀ c ∈ roots, cidKey c ∈ S) ∧
     ∀ k ∈ S, k ∉ set → ∃ nd, dag.get k = some nd ∧ ∀ l ∈ nd.links, cidKey l ∈ S) := by
  intro roots
  induction roots with
  | nil =>
    intro set S hS
    rw [Descendants] at hS
    obtain ⟨rfl, -⟩ := Prod.mk.injEq .. ▸ hS
    exact ⟨by simp, fun k hk hk2 => absurd hk hk2⟩
  | cons c rest ih =>
    intro set S hS
    rw [Descendants] at hS
    cases hget : dag.get c with
    | none => simp only [hget] at hS; simp at hS
    | some nd =>
      simp only [hget] at hS
      rcases h2 : EnumerateChildren dag false fuel (insert (cidKey c) set) nd.links
        with ⟨set2, oe⟩
      rw [h2] at hS
      cases oe with
      | some e => simp at hS
      | none =>
        have hS' : Descendants dag fuel set2 rest false = (S, none) := hS
        obtain ⟨el, ecl⟩ := enum_strict dag fuel (insert (cidKey c) set) nd.links set2 h2
        obtain ⟨rl, rcl⟩ := ih set2 S hS'
        have hmono2 : set2 ⊆ S := by
          have := desc_mono dag fuel set2 rest false
          rw [hS'] at this; exact this
        have hmono1 : insert (cidKey c) set ⊆ set2 := by
          have := enum_mono dag false fuel (insert (cidKey c) set) nd.links
          rw [h2] at this; exact this
        constructor
        · intro c1 hc1
          rcases List.mem_cons.mp hc1 with h3 | h3
          · exact hmono2 (hmono1 (h3 ▸ Finset.mem_insert_self _ _))
          · exact rl c1 h3
        · intro k hkS hkset
          by_cases hk2 : k ∈ set2
          · by_cases hk1 : k ∈ insert (cidKey c) set
            · have hkc : k = cidKey c := by
                rcases Finset.mem_insert.mp hk1 with h3 | h3
                · exact h3
                · exact absurd h3 hkset
              subst hkc
              exact ⟨nd, hget, fun l hl => hmono2 (el l hl)⟩
            · obtain ⟨nd1, hg1, hl1⟩ := ecl k hk2 hk1
              exact ⟨nd1, hg1, fun l hl => hmono2 (hl1 l hl)⟩
          · exact rcl k hkS hk2

theorem desc_ok_roots (dag : DAG) (fuel : Nat) : ∀ (roots : List Cid) (set : Finset Key) (be : Bool),
    ∀ S : Finset Key, (Descendants dag fuel set roots be).1 = S →
    (Descendants dag fuel set roots be).2 = none →
    ∀ c ∈ roots, cidKey c ∈ S := by
  intro roots
  induction roots with
  | nil => intro set be S hS he c hc; cases hc
  | cons c rest ih =>
    intro set be S hS he c1 hc1
    rw [Descendants] at hS he
    cases hget : dag.get c with
    | none => simp only [hget] at he; simp at he
    | some nd =>
      simp only [hget] at hS he
      rcases h2 : EnumerateChildren dag be fuel (insert (cidKey c) set) nd.links
        with ⟨set2, oe⟩
      rw [h2] at hS he
      cases oe with
      | some e => simp at he
      | none =>
        have hS' : (Descendants dag fuel set2 rest be).1 = S := hS
        have he' : (Descendants dag fuel set2 rest be).2 = none := he
        have hmono2 : set2 ⊆ S := by
          have := desc_mono dag fuel set2 rest be
          rw [hS'] at this; exact this
        have hmono1 : insert (cidKey c) set ⊆ set2 := by
          have := enum_mono dag be fuel (insert (cidKey c) set) nd.links
          rw [h2] at this; exact this
        rcases List.mem_cons.mp hc1 with h3 | h3
        · exact hmono2 (hmono1 (h3 ▸ Finset.mem_insert_self _ _))
        · exact ih set2 be S hS' he' c1 h3

theorem desc_err_take (dag : DAG) (fuel : Nat) : ∀ (roots : List Cid) (set : Finset Key) (be : Bool)
    (S : Finset Key) (e : GErr), Descendants dag fuel set roots be = (S, some e) →
    ∃ n, 0 < n ∧ n ≤ roots.length ∧ ∀ c ∈ roots.take n, cidKey c ∈ S := by
  intro roots
  induction roots with
  | nil => intro set be S e hS; rw [Descendants] at hS; simp at hS
  | cons c rest ih =>
    intro set be S e hS
    rw [Descendants] at hS
    cases hget : dag.get c with
    | none =>
      simp only [hget] at hS
      obtain ⟨rfl, -⟩ := Prod.mk.injEq .. ▸ hS
      exact ⟨1, by omega, by simp, by simp⟩
    | some nd =>
      simp only [hget] at hS
      rcases h2 : EnumerateChildren dag be fuel (insert (cidKey c) set) nd.links
        with ⟨set2, oe⟩
      rw [h2] at hS
      have hmono1 : insert (cidKey c) set ⊆ set2 := by
        have := enum_mono dag be fuel (insert (cidKey c) set) nd.links
        rw [h2] at this; exact this
      cases oe with
      | some e2 =>
        have hS2 : set2 = S := congrArg Prod.fst hS
        refine ⟨1, by omega, by simp, ?_⟩
        intro c1 hc1
        rw [List.take_succ_cons, List.take_zero] at hc1
        simp at hc1
        subst hc1
        exact hS2 ▸ hmono1 (Finset.mem_insert_self _ _)
      | none =>
        have hS' : Descendants dag fuel set2 rest be = (S, some e) := hS
        obtain ⟨n, hn0, hnlen, hmem⟩ := ih set2 be S e hS'
        have hmono2 : set2 ⊆ S := by
          have := desc_mono dag fuel set2 rest be
          rw [hS'] at this; exact this
        refine ⟨n + 1, by omega, by simp; omega, ?_⟩
        intro c1 hc1
        rw [List.take_succ_cons] at hc1
        rcases List.mem_cons.mp hc1 with h3 | h3
        · exact hmono2 (hmono1 (h3 ▸ Finset.mem_insert_self _ _))
        · exact hmem c1 h3

theorem get_eq_some_elim {dag : DAG} {c : Cid} {nd : Node} (h : dag.get c = some nd) :
    ∃ p ∈ dag.entries, p.1 = c ∧ p.2 = nd := by
  unfold DAG.get at h
  rcases Option.map_eq_some'.mp h with ⟨p, hfind, hp2⟩
  have hmem := List.mem_of_find?_eq_some hfind
  have hpc := List.find?_some hfind
  exact ⟨p, hmem, by simpa using hpc, hp2⟩

theorem get_mem_dom {dag : DAG} {c : Cid} {nd : Node} (h : dag.get c = some nd) :
    c ∈ dagDom dag := by
  obtain ⟨p, hmem, hpc, -⟩ := get_eq_some_elim h
  unfold dagDom
  rw [List.mem_toFinset, List.mem_map]
  exact ⟨p, hmem, hpc⟩

theorem closed_links {dag : DAG} (hcl : ClosedDag dag) {c : Cid} {nd : Node}
    (h : dag.get c = some nd) : ∀ l ∈ nd.links, (dag.get l).isSome := by
  obtain ⟨p, hmem, -, hp2⟩ := get_eq_some_elim h
  intro l hl
  exact hcl p hmem l (by rw [hp2]; exact hl)

theorem card_sdiff_insert_lt {dom set : Finset Key} {c : Key} (hc : c ∈ dom) (hcs : c ∉ set) :
    (dom \ insert c set).card < (dom \ set).card := by
  have h1 : dom \ insert c set = (dom \ set).erase c := by
    ext x
    simp only [Finset.mem_sdiff, Finset.mem_erase, Finset.mem_insert]
    tauto
  rw [h1]
  exact Finset.card_erase_lt_of_mem (Finset.mem_sdiff.mpr ⟨hc, hcs⟩)

theorem enum_noerr (dag : DAG) (hcl : ClosedDag dag) : ∀ (fuel : Nat) (set : Finset Key) (L : List Cid),
    (∀ c ∈ L, (dag.get c).isSome) → (dagDom dag \ set).card < fuel →
    (EnumerateChildren dag false fuel set L).2 = none := by
  intro fuel set L
  induction fuel, set, L using EnumerateChildren.induct dag false with
  | case1 fuel set => intro _ _; simp [EnumerateChildren]
  | case2 fuel set c rest h ih =>
    intro hL hf
    rw [EnumerateChildren]; simp only [if_pos h]
    exact ih (fun c1 hc1 => hL c1 (List.mem_cons_of_mem _ hc1)) hf
  | case3 fuel set c rest h set1 hget hbe => simp at hbe
  | case4 fuel set c rest h hget hbe =>
    intro hL hf
    have := hL c (List.mem_cons_self _ _)
    rw [hget] at this; simp at this
  | case5 set c rest h nd hget =>
    intro hL hf
    exact absurd hf (Nat.not_lt_zero _)
  | case6 set c rest h set1 nd hget fuel' set2 e =>
    rename_i henum ihl
    intro hL hf
    have henum' : EnumerateChildren dag false fuel' (insert (cidKey c) set) nd.links
        = (set2, some e) := henum
    have hcdom : (cidKey c) ∈ dagDom dag := get_mem_dom hget
    have hflt : (dagDom dag \ insert (cidKey c) set).card < fuel' := by
      have := card_sdiff_insert_lt hcdom h
      omega
    have hres := ihl (closed_links hcl hget) hflt
    rw [henum'] at hres; simp at hres
  | case7 set c rest h set1 nd hget fuel' set2 henum ihl =>
    rename_i ihr
    intro hL hf
    have henum' : EnumerateChildren dag false fuel' (insert (cidKey c) set) nd.links
        = (set2, none) := henum
    rw [EnumerateChildren]
    simp only [if_neg h, hget, henum']
    apply ihr (fun c1 hc1 => hL c1 (List.mem_cons_of_mem _ hc1))
    have hmono1 : insert (cidKey c) set ⊆ set2 := by
      have := enum_mono dag false fuel' (insert (cidKey c) set) nd.links
      rw [henum'] at this; exact this
    have hsub : dagDom dag \ set2 ⊆ dagDom dag \ set :=
      Finset.sdiff_subset_sdiff (subset_refl _) ((Finset.subset_insert _ _).trans hmono1)
    have := Finset.card_le_card hsub
    omega

theorem desc_noerr (dag : DAG) (hcl : ClosedDag dag) (fuel : Nat) : ∀ (roots : List Cid) (set : Finset Key),
    (∀ c ∈ roots, (dag.get c).isSome) → (dagDom dag \ set).card < fuel →
    (Descendants dag fuel set roots false).2 = none := by
  intro roots
  induction roots with
  | nil => intro set _ _; simp [Descendants]
  | cons c rest ih =>
    intro set hL hf
    rw [Descendants]
    rcases hgs : dag.get c with _ | nd
    · have := hL c (List.mem_cons_self _ _); rw [hgs] at this; simp at this
    · simp only [hgs]
      rcases h2 : EnumerateChildren dag false fuel (insert (cidKey c) set) nd.links
        with ⟨set2, oe⟩
      have hnone : oe = none := by
        have hres := enum_noerr dag hcl fuel (insert (cidKey c) set) nd.links
          (closed_links hcl hgs) (by
            have hsub : dagDom dag \ insert (cidKey c) set ⊆ dagDom dag \ set :=
              Finset.sdiff_subset_sdiff (subset_refl _) (Finset.subset_insert _ _)
            have := Finset.card_le_card hsub
            omega)
        rw [h2] at hres; exact hres
      subst hnone
      have hmono1 : insert (cidKey c) set ⊆ set2 := by
        have := enum_mono dag false fuel (insert (cidKey c) set) nd.links
        rw [h2] at this; exact this
      have hres : (Descendants dag fuel set2 rest false).2 = none := by
        apply ih set2 (fun c1 hc1 => hL c1 (List.mem_cons_of_mem _ hc1))
        have hsub : dagDom dag \ set2 ⊆ dagDom dag \ set :=
          Finset.sdiff_subset_sdiff (subset_refl _) ((Finset.subset_insert _ _).trans hmono1)
        have := Finset.card_le_card hsub
        omega
      exact hres

theorem desc_complete (dag : DAG) (fuel : Nat) (roots : List Cid) (S : Finset Key)
    (hS : Descendants dag fuel ∅ roots false = (S, none)) :
    ∀ k, ReachKey dag roots k → k ∈ S := by
  obtain ⟨hroots, hclosure⟩ := desc_strict dag fuel roots ∅ S hS
  rintro k ⟨r, hr, hrk⟩
  induction hrk with
  | refl => exact hroots r hr
  | tail hab hbc ih =>
    obtain ⟨nd, hg, hlinks⟩ := hclosure _ ih (Finset.not_mem_empty _)
    obtain ⟨nd2, hg2, hcm⟩ := hbc
    rw [hg] at hg2
    obtain rfl := Option.some.inj hg2
    exact hlinks _ hcm

theorem sweep_out_sub_del (gcs : Finset Key) (failKeys : List Key) (cancelAt : Option Nat) :
    ∀ (t : Nat) (l : List Key), ∀ k ∈ (sweepGo gcs failKeys cancelAt t l).1,
      k ∈ (sweepGo gcs failKeys cancelAt t l).2 := by
  intro t l
  induction t, l using sweepGo.induct gcs failKeys cancelAt with
  | case1 t => intro k hk; simp [sweepGo] at hk
  | case2 t k rest h1 =>
    intro k1 hk1
    rw [sweepGo] at hk1 ⊢
    simp only [if_pos h1] at hk1 ⊢
    simp at hk1
  | case3 t k rest h1 h2 ih =>
    intro k1 hk1
    rw [sweepGo] at hk1 ⊢
    simp only [if_neg h1, if_pos h2] at hk1 ⊢
    exact ih k1 hk1
  | case4 t k rest h1 h2 h3 =>
    intro k1 hk1
    rw [sweepGo] at hk1
    simp only [if_neg h1, if_neg h2, if_pos h3] at hk1
    simp at hk1
  | case5 t k rest h1 h2 h3 h4 =>
    intro k1 hk1
    rw [sweepGo] at hk1
    simp only [if_neg h1, if_neg h2, if_neg h3, if_pos h4] at hk1
    simp at hk1
  | case6 t k rest h1 h2 h3 h4 out del hrec ih =>
    intro k1 hk1
    rw [sweepGo] at hk1 ⊢
    simp only [if_neg h1, if_neg h2, if_neg h3, if_neg h4, hrec] at hk1 ⊢
    rcases List.mem_cons.mp hk1 with h5 | h5
    · exact h5 ▸ List.mem_cons_self _ _
    · rw [hrec] at ih
      exact List.mem_cons_of_mem _ (ih k1 h5)

theorem sweep_del_sublist (gcs : Finset Key) (failKeys : List Key) (cancelAt : Option Nat) :
    ∀ (t : Nat) (l : List Key), (sweepGo gcs failKeys cancelAt t l).2.Sublist l := by
  intro t l
  induction t, l using sweepGo.induct gcs failKeys cancelAt with
  | case1 t => simp [sweepGo]
  | case2 t k rest h1 =>
    rw [sweepGo]; simp only [if_pos h1]; exact List.nil_sublist _
  | case3 t k rest h1 h2 ih =>
    rw [sweepGo]; simp only [if_neg h1, if_pos h2]
    exact ih.trans (List.sublist_cons_self _ _)
  | case4 t k rest h1 h2 h3 =>
    rw [sweepGo]; simp only [if_neg h1, if_neg h2, if_pos h3]
    exact List.nil_sublist _
  | case5 t k rest h1 h2 h3 h4 =>
    rw [sweepGo]; simp only [if_neg h1, if_neg h2, if_neg h3, if_pos h4]
    exact (List.nil_sublist _).cons₂ _
  | case6 t k rest h1 h2 h3 h4 out del hrec ih =>
    rw [sweepGo]; simp only [if_neg h1, if_neg h2, if_neg h3, if_neg h4, hrec]
    rw [hrec] at ih
    exact ih.cons₂ _

theorem sweep_out_sublist (gcs : Finset Key) (failKeys : List Key) (cancelAt : Option Nat) :
    ∀ (t : Nat) (l : List Key), (sweepGo gcs failKeys cancelAt t l).1.Sublist l := by
  intro t l
  induction t, l using sweepGo.induct gcs failKeys cancelAt with
  | case1 t => simp [sweepGo]
  | case2 t k rest h1 =>
    rw [sweepGo]; simp only [if_pos h1]; exact List.nil_sublist _
  | case3 t k rest h1 h2 ih =>
    rw [sweepGo]; simp only [if_neg h1, if_pos h2]
    exact ih.trans (List.sublist_cons_self _ _)
  | case4 t k rest h1 h2 h3 =>
    rw [sweepGo]; simp only [if_neg h1, if_neg h2, if_pos h3]
    exact List.nil_sublist _
  | case5 t k rest h1 h2 h3 h4 =>
    rw [sweepGo]; simp only [if_neg h1, if_neg h2, if_neg h3, if_pos h4]
    exact List.nil_sublist _
  | case6 t k rest h1 h2 h3 h4 out del hrec ih =>
    rw [sweepGo]; simp only [if_neg h1, if_neg h2, if_neg h3, if_neg h4, hrec]
    rw [hrec] at ih
    exact ih.cons₂ _

theorem sweep_del_dead (gcs : Finset Key) (failKeys : List Key) (cancelAt : Option Nat) :
    ∀ (t : Nat) (l : List Key), ∀ k ∈ (sweepGo gcs failKeys cancelAt t l).2,
      k ∉ gcs ∧ k ∉ failKeys := by
  intro t l
  induction t, l using sweepGo.induct gcs failKeys cancelAt with
  | case1 t => intro k hk; simp [sweepGo] at hk
  | case2 t k rest h1 =>
    intro k1 hk1
    rw [sweepGo] at hk1; simp only [if_pos h1] at hk1; simp at hk1
  | case3 t k rest h1 h2 ih =>
    intro k1 hk1
    rw [sweepGo] at hk1; simp only [if_neg h1, if_pos h2] at hk1
    exact ih k1 hk1
  | case4 t k rest h1 h2 h3 =>
    intro k1 hk1
    rw [sweepGo] at hk1; simp only [if_neg h1, if_neg h2, if_pos h3] at hk1
    simp at hk1
  | case5 t k rest h1 h2 h3 h4 =>
    intro k1 hk1
    rw [sweepGo] at hk1; simp only [if_neg h1, if_neg h2, if_neg h3, if_pos h4] at hk1
    simp at hk1
    exact hk1 ▸ ⟨h2, h3⟩
  | case6 t k rest h1 h2 h3 h4 out del hrec ih =>
    intro k1 hk1
    rw [sweepGo] at hk1
    simp only [if_neg h1, if_neg h2, if_neg h3, if_neg h4, hrec] at hk1
    rcases List.mem_cons.mp hk1 with h5 | h5
    · exact h5 ▸ ⟨h2, h3⟩
    · rw [hrec] at ih
      exact ih k1 h5

theorem sweep_nofail_nocancel (gcs : Finset Key) : ∀ (l : List Key) (t : Nat),
    sweepGo gcs [] none t l =
      (l.filter (fun k => decide (k ∉ gcs)), l.filter (fun k => decide (k ∉ gcs))) := by
  intro l
  induction l with
  | nil => intro t; simp [sweepGo]
  | cons k rest ih =>
    intro t
    rw [sweepGo]
    by_cases h : k ∈ gcs
    · simp [isCancelledAt, h, ih]
    · simp [isCancelledAt, h, ih]

theorem sweep_cancel_now (gcs : Finset Key) (failKeys : List Key) (cancelAt : Option Nat)
    (t : Nat) (l : List Key) (h : isCancelledAt cancelAt t = true) :
    sweepGo gcs failKeys cancelAt t l = ([], []) := by
  cases l with
  | nil => simp [sweepGo]
  | cons k rest => rw [sweepGo]; simp only [if_pos h]

theorem sweep_stop_fail (gcs : Finset Key) (failKeys : List Key) (k : Key) (rest : List Key)
    (hk1 : k ∉ gcs) (hk2 : k ∈ failKeys) : ∀ (pre : List Key) (t : Nat),
    (∀ j ∈ pre, j ∉ gcs → j ∉ failKeys) →
    sweepGo gcs failKeys none t (pre ++ k :: rest) = sweepGo gcs failKeys none t pre := by
  intro pre
  induction pre with
  | nil =>
    intro t _
    rw [List.nil_append, sweepGo]
    simp [isCancelledAt, if_neg hk1, hk1, hk2, sweepGo]
  | cons j pre' ih =>
    intro t hpre
    rw [List.cons_append, sweepGo]
    conv_rhs => rw [sweepGo]
    by_cases hj : j ∈ gcs
    · simp only [isCancelledAt, if_pos hj, Bool.false_eq_true, if_false]
      exact ih (t + 1) (fun x hx => hpre x (List.mem_cons_of_mem _ hx))
    · have hjf : j ∉ failKeys := hpre j (List.mem_cons_self _ _) hj
      simp only [isCancelledAt, if_neg hj, if_neg hjf, Bool.false_eq_true, if_false]
      rw [ih (t + 2) (fun x hx => hpre x (List.mem_cons_of_mem _ hx))]

theorem sweep_gcs_congr (gcs gcs2 : Finset Key) (failKeys : List Key) (cancelAt : Option Nat)
    (hiff : ∀ x, x ∈ gcs ↔ x ∈ gcs2) : ∀ (l : List Key) (t : Nat),
    sweepGo gcs failKeys cancelAt t l = sweepGo gcs2 failKeys cancelAt t l := by
  intro l
  induction l with
  | nil => intro t; simp [sweepGo]
  | cons k rest ih =>
    intro t
    rw [sweepGo]
    conv_rhs => rw [sweepGo]
    by_cases hc : isCancelledAt cancelAt t = true
    · simp only [if_pos hc]
    · simp only [if_neg hc]
      by_cases hk : k ∈ gcs
      · simp only [if_pos hk, if_pos ((hiff k).mp hk), ih]
      · have hk2 : k ∉ gcs2 := fun h => hk ((hiff k).mpr h)
        simp only [if_neg hk, if_neg hk2, ih]

theorem GC_err (bs : BState) (pn : Pinner) (dag : DAG) (ber : List Cid)
    (cancelAt : Option Nat) (fuel : Nat) (e : GErr)
    (hset : ColoredSet pn dag fuel ber = Except.error e) :
    GC bs pn dag ber cancelAt fuel =
      { err := some e, outputProduced := false, output := [], outputClosed := false,
        deleted := [], finalStore := bs.store, lockReleased := false } := by
  unfold GC
  rw [hset]

theorem GC_enumFail (bs : BState) (pn : Pinner) (dag : DAG) (ber : List Cid)
    (cancelAt : Option Nat) (fuel : Nat) (gcs : Finset Key)
    (hset : ColoredSet pn dag fuel ber = Except.ok gcs) (henum : bs.allKeysFail = true) :
    GC bs pn dag ber cancelAt fuel =
      { err := some GErr.enumFail, outputProduced := false, output := [], outputClosed := false,
        deleted := [], finalStore := bs.store, lockReleased := false } := by
  unfold GC
  rw [hset]
  simp only [henum, if_true]

theorem GC_ok (bs : BState) (pn : Pinner) (dag : DAG) (ber : List Cid)
    (cancelAt : Option Nat) (fuel : Nat) (gcs : Finset Key)
    (hset : ColoredSet pn dag fuel ber = Except.ok gcs) (henum : bs.allKeysFail = false) :
    GC bs pn dag ber cancelAt fuel =
      { err := none, outputProduced := true,
        output := (sweepGo gcs bs.failKeys cancelAt 0 bs.store).1,
        outputClosed := true,
        deleted := (sweepGo gcs bs.failKeys cancelAt 0 bs.store).2,
        finalStore := bs.store.filter
          (fun k => decide (k ∉ (sweepGo gcs bs.failKeys cancelAt 0 bs.store).2)),
        lockReleased := true } := by
  unfold GC
  rw [hset]
  simp only [henum, Bool.false_eq_true, if_false]

/-- C1: claimed that the exclusive GC lock is released exactly once on every exit
path of GC.  The code releases it only inside the sweep goroutine (deferred
unlocker.Unlock()), so the two setup-failure exits of GC — ColoredSet failing
(here: an unfetchable recursively pinned root) and AllKeysChan failing — return
with the lock still held, while the sweep path does release it. -/
theorem gc_lock_leak_on_setup_failure :
    (GC ⟨[5], [], false⟩ ⟨[1], [], []⟩ ⟨[]⟩ [] none 10).err = some GErr.notFound ∧
    (GC ⟨[5], [], false⟩ ⟨[1], [], []⟩ ⟨[]⟩ [] none 10).lockReleased = false ∧
    (GC ⟨[5], [], true⟩ ⟨[], [], []⟩ ⟨[]⟩ [] none 10).err = some GErr.enumFail ∧
    (GC ⟨[5], [], true⟩ ⟨[], [], []⟩ ⟨[]⟩ [] none 10).lockReleased = false ∧
    (GC ⟨[5], [], false⟩ ⟨[], [], []⟩ ⟨[]⟩ [] none 10).lockReleased = true := by
  decide

/-- C2: claimed that a best-effort root whose node fetch fails is skipped and
Descendants succeeds.  In the code the root-level ds.Get error is returned
regardless of bestEffort (only descendant fetches are tolerant), so Descendants
returns the error — having already added the root key — and ColoredSet aborts
the whole pass. -/
theorem bestEffort_root_fetch_error_aborts :
    Descendants ⟨[]⟩ 10 ∅ [7] true = ({7}, some GErr.notFound) ∧
    ColoredSet ⟨[], [], []⟩ ⟨[]⟩ 10 [7] = Except.error GErr.notFound := by
  decide

/-- C5: if the mark phase (ColoredSet) fails, GC returns that error, produces
no output sequence, deletes nothing, and leaves the store untouched. -/
theorem gc_mark_failure_no_side_effects (bs : BState) (pn : Pinner) (dag : DAG)
    (ber : List Cid) (cancelAt : Option Nat) (fuel : Nat) (e : GErr)
    (hset : ColoredSet pn dag fuel ber = Except.error e) :
    (GC bs pn dag ber cancelAt fuel).err = some e ∧
    (GC bs pn dag ber cancelAt fuel).outputProduced = false ∧
    (GC bs pn dag ber cancelAt fuel).output = [] ∧
    (GC bs pn dag ber cancelAt fuel).deleted = [] ∧
    (GC bs pn dag ber cancelAt fuel).finalStore = bs.store := by
  rw [GC_err bs pn dag ber cancelAt fuel e hset]
  exact ⟨rfl, rfl, rfl, rfl, rfl⟩

/-- Witness for C5 at a concrete failing input: an unfetchable recursive root,
store [4, 5] untouched. -/
theorem gc_mark_failure_no_side_effects_witness :
    ColoredSet ⟨[1], [], []⟩ ⟨[]⟩ 10 [] = Except.error GErr.notFound ∧
    (GC ⟨[4, 5], [], false⟩ ⟨[1], [], []⟩ ⟨[]⟩ [] none 10).deleted = [] ∧
    (GC ⟨[4, 5], [], false⟩ ⟨[1], [], []⟩ ⟨[]⟩ [] none 10).finalStore = [4, 5] := by
  have h := gc_mark_failure_no_side_effects ⟨[4, 5], [], false⟩ ⟨[1], [], []⟩ ⟨[]⟩ []
    none 10 GErr.notFound (by decide)
  exact ⟨by decide, h.2.2.2.1, h.2.2.2.2⟩

theorem desc_err_decomp (dag : DAG) (fuel : Nat) : ∀ (roots : List Cid) (set : Finset Key)
    (be : Bool) (S : Finset Key) (e : GErr), Descendants dag fuel set roots be = (S, some e) →
    ∃ pre c post S0, roots = pre ++ c :: post ∧
      Descendants dag fuel set pre be = (S0, none) ∧
      Descendants dag fuel S0 [c] be = (S, some e) := by
  intro roots
  induction roots with
  | nil => intro set be S e h; rw [Descendants] at h; simp at h
  | cons c rest ih =>
    intro set be S e h
    rw [Descendants] at h
    cases hget : dag.get c with
    | none =>
      simp only [hget] at h
      refine ⟨[], c, rest, set, rfl, rfl, ?_⟩
      rw [Descendants]
      simp only [hget]
      exact h
    | some nd =>
      simp only [hget] at h
      rcases henum : EnumerateChildren dag be fuel (insert (cidKey c) set) nd.links
        with ⟨set2, oe⟩
      rw [henum] at h
      cases oe with
      | some e2 =>
        have h' : ((set2, some e2) : Finset Key × Option GErr) = (S, some e) := h
        refine ⟨[], c, rest, set, rfl, rfl, ?_⟩
        rw [Descendants]
        simp only [hget, henum]
        exact h'
      | none =>
        have h' : Descendants dag fuel set2 rest be = (S, some e) := h
        obtain ⟨pre', c', post', S0', hra, hp, hc⟩ := ih set2 be S e h'
        refine ⟨c :: pre', c', post', S0', by rw [hra]; rfl, ?_, hc⟩
        rw [Descendants]
        simp only [hget, henum]
        exact hp

/-- C10: when Descendants fails, the caller-supplied set is mutated
non-atomically: no key is removed (the input set is contained in the result),
and the roots decompose as pre ++ c :: post where the roots in pre were
processed cleanly, the error arose while processing root c itself, and the
keys of every processed root — all of pre and the failing root c, whose key is
inserted before its node fetch is attempted — are in the result set. -/
theorem descendants_error_keeps_set (dag : DAG) (fuel : Nat) (set : Finset Key)
    (roots : List Cid) (be : Bool) (S : Finset Key) (e : GErr)
    (h : Descendants dag fuel set roots be = (S, some e)) :
    set ⊆ S ∧
    ∃ pre c post S0, roots = pre ++ c :: post ∧
      Descendants dag fuel set pre be = (S0, none) ∧
      Descendants dag fuel S0 [c] be = (S, some e) ∧
      (∀ c1 ∈ pre, cidKey c1 ∈ S) ∧ cidKey c ∈ S := by
  have hmset : set ⊆ S := by
    have hm := desc_mono dag fuel set roots be
    rw [h] at hm; exact hm
  obtain ⟨pre, c, post, S0, hra, hp, hc⟩ := desc_err_decomp dag fuel roots set be S e h
  have hS0S : S0 ⊆ S := by
    have hm := desc_mono dag fuel S0 [c] be
    rw [hc] at hm; exact hm
  have hpreS : ∀ c1 ∈ pre, cidKey c1 ∈ S := by
    intro c1 hc1
    exact hS0S (desc_ok_roots dag fuel pre set be S0 (by rw [hp]) (by rw [hp]) c1 hc1)
  have hcS : cidKey c ∈ S := by
    obtain ⟨n, hn0, hn1, hmem⟩ := desc_err_take dag fuel [c] S0 be S e hc
    have hn : n = 1 := by simp at hn1; omega
    subst hn
    exact hmem c (by simp)
  exact ⟨hmset, pre, c, post, S0, hra, hp, hc, hpreS, hcS⟩

/-- Witness for C10: root 1 is processed cleanly and root 2 is the failing
root; the pre-seeded key 5, the processed root key 1 and the failing root key
2 all remain in the set, and the run decomposes around the failure. -/
theorem descendants_error_keeps_set_witness :
    Descendants dagSolo 10 {5} [1, 2] false = ({5, 1, 2}, some GErr.notFound) ∧
    (({5} : Finset Key) ⊆ {5, 1, 2} ∧
      ∃ pre c post S0, ([1, 2] : List Cid) = pre ++ c :: post ∧
        Descendants dagSolo 10 {5} pre false = (S0, none) ∧
        Descendants dagSolo 10 S0 [c] false = ({5, 1, 2}, some GErr.notFound) ∧
        (∀ c1 ∈ pre, cidKey c1 ∈ ({5, 1, 2} : Finset Key)) ∧
        cidKey c ∈ ({5, 1, 2} : Finset Key)) := by
  have hev : Descendants dagSolo 10 {5} [1, 2] false = ({5, 1, 2}, some GErr.notFound) := by
    simp [Descendants, EnumerateChildren, DAG.get, dagSolo]
    decide
  exact ⟨hev, descendants_error_keeps_set dagSolo 10 {5} [1, 2] false {5, 1, 2}
    GErr.notFound hev⟩

/-- C6: on a closed DAG (possibly cyclic) with fetchable roots and fuel larger
than the number of stored nodes, the strict closure computation of Descendants
terminates without error — descent stops at keys already in the set — and the
resulting set holds exactly the keys reachable from the roots. -/
theorem descendants_terminates_reachable (dag : DAG) (roots : List Cid) (fuel : Nat)
    (hroots : ∀ c ∈ roots, (dag.get c).isSome) (hcl : ClosedDag dag)
    (hfuel : (dagDom dag).card < fuel) :
    (Descendants dag fuel ∅ roots false).2 = none ∧
    ∀ k, k ∈ (Descendants dag fuel ∅ roots false).1 ↔ ReachKey dag roots k := by
  have hne : (Descendants dag fuel ∅ roots false).2 = none :=
    desc_noerr dag hcl fuel roots ∅ hroots (by simpa using hfuel)
  have hD : Descendants dag fuel ∅ roots false = ((Descendants dag fuel ∅ roots false).1, none) := by
    rw [← hne]
  refine ⟨hne, fun k => ⟨fun hk => ?_, fun hk => desc_complete dag fuel roots _ hD k hk⟩⟩
  rcases desc_sound dag fuel roots ∅ false k hk with h1 | h1
  · simp at h1
  · exact h1

/-- Witness for C6 on the two-node cycle 1 -> 2 -> 1: the computation succeeds
and the set is exactly the reachable keys. -/
theorem descendants_terminates_reachable_witness :
    (∀ c ∈ [(1 : Cid)], ((dagAB).get c).isSome) ∧ ClosedDag dagAB ∧
    (dagDom dagAB).card < 10 ∧
    ((Descendants dagAB 10 ∅ [1] false).2 = none ∧
      ∀ k, k ∈ (Descendants dagAB 10 ∅ [1] false).1 ↔ ReachKey dagAB [1] k) := by
  refine ⟨by decide, by decide, by decide, ?_⟩
  exact descendants_terminates_reachable dagAB [1] 10 (by decide) (by decide) (by decide)

/-- C3: a completed sweep (no cancellation, no deletion failure) deletes and
emits exactly the stored keys absent from the live set, each via the same list
(so emitted once and only for actually deleted blocks), and the store retains
exactly the stored keys in the live set. -/
theorem gc_sweep_correctness (bs : BState) (pn : Pinner) (dag : DAG) (ber : List Cid)
    (fuel : Nat) (gcs : Finset Key)
    (hset : ColoredSet pn dag fuel ber = Except.ok gcs)
    (henum : bs.allKeysFail = false) (hfail : bs.failKeys = []) :
    (GC bs pn dag ber none fuel).err = none ∧
    (GC bs pn dag ber none fuel).output = bs.store.filter (fun k => decide (k ∉ gcs)) ∧
    (GC bs pn dag ber none fuel).deleted = bs.store.filter (fun k => decide (k ∉ gcs)) ∧
    (GC bs pn dag ber none fuel).finalStore = bs.store.filter (fun k => decide (k ∈ gcs)) ∧
    (bs.store.Nodup → (GC bs pn dag ber none fuel).output.Nodup) := by
  have hgc := GC_ok bs pn dag ber none fuel gcs hset henum
  have hsw := sweep_nofail_nocancel gcs bs.store 0
  refine ⟨by simp only [hgc], ?_, ?_, ?_, ?_⟩
  · simp only [hgc, hfail, hsw]
  · simp only [hgc, hfail, hsw]
  · simp only [hgc, hfail, hsw]
    apply List.filter_congr
    intro x hx
    rw [decide_eq_decide]
    simp [List.mem_filter, hx]
  · intro hnd
    simp only [hgc, hfail, hsw]
    exact hnd.filter _

/-- Witness for C3, the spec's example shape: store [1,2,3,4], live set {1,2}
(from recursive pin 1 with child 2); exactly [3,4] is emitted and [1,2] kept. -/
theorem gc_sweep_correctness_witness :
    ColoredSet ⟨[1], [], []⟩ dagLine 10 [] = Except.ok {1, 2} ∧
    (GC ⟨[1, 2, 3, 4], [], false⟩ ⟨[1], [], []⟩ dagLine [] none 10).output = [3, 4] ∧
    (GC ⟨[1, 2, 3, 4], [], false⟩ ⟨[1], [], []⟩ dagLine [] none 10).finalStore = [1, 2] := by
  have hset : ColoredSet ⟨[1], [], []⟩ dagLine 10 [] = Except.ok {1, 2} := by
    simp [ColoredSet, Descendants, EnumerateChildren, DAG.get, dagLine]
    decide
  have h := gc_sweep_correctness ⟨[1, 2, 3, 4], [], false⟩ ⟨[1], [], []⟩ dagLine [] 10
    {1, 2} hset rfl rfl
  refine ⟨hset, ?_, ?_⟩
  · rw [h.2.1]; decide
  · rw [h.2.2.2.1]; decide

/-- C7: if deleting a dead key fails, the sweep stops at once: the result is
exactly that of sweeping the keys before the failure, nothing at or after the
failing key is deleted or emitted, the failing key itself is neither emitted
nor deleted, the channel is closed and the lock released, and every emitted key
was actually deleted. -/
theorem gc_delete_failure_stops (bs : BState) (pn : Pinner) (dag : DAG) (ber : List Cid)
    (fuel : Nat) (gcs : Finset Key) (pre : List Key) (k : Key) (rest : List Key)
    (hset : ColoredSet pn dag fuel ber = Except.ok gcs)
    (henum : bs.allKeysFail = false)
    (hstore : bs.store = pre ++ k :: rest)
    (hk1 : k ∉ gcs) (hk2 : k ∈ bs.failKeys)
    (hpre : ∀ j ∈ pre, j ∉ gcs → j ∉ bs.failKeys) :
    (GC bs pn dag ber none fuel).lockReleased = true ∧
    (GC bs pn dag ber none fuel).outputClosed = true ∧
    (GC bs pn dag ber none fuel).output = (sweepGo gcs bs.failKeys none 0 pre).1 ∧
    (GC bs pn dag ber none fuel).deleted = (sweepGo gcs bs.failKeys none 0 pre).2 ∧
    k ∉ (GC bs pn dag ber none fuel).output ∧
    k ∉ (GC bs pn dag ber none fuel).deleted ∧
    (∀ x ∈ (GC bs pn dag ber none fuel).output, x ∈ (GC bs pn dag ber none fuel).deleted) := by
  have hgc := GC_ok bs pn dag ber none fuel gcs hset henum
  have hstop := sweep_stop_fail gcs bs.failKeys k rest hk1 hk2 pre 0 hpre
  have hkpre : k ∉ pre := by
    intro hmem
    exact hpre k hmem hk1 hk2
  refine ⟨by simp only [hgc], by simp only [hgc], ?_, ?_, ?_, ?_, ?_⟩
  · simp only [hgc, hstore, hstop]
  · simp only [hgc, hstore, hstop]
  · simp only [hgc, hstore, hstop]
    intro hmem
    exact hkpre ((sweep_out_sublist gcs bs.failKeys none 0 pre).subset hmem)
  · simp only [hgc, hstore, hstop]
    intro hmem
    exact hkpre ((sweep_del_sublist gcs bs.failKeys none 0 pre).subset hmem)
  · intro x hx
    simp only [hgc, hstore, hstop] at hx ⊢
    exact sweep_out_sub_del gcs bs.failKeys none 0 pre x hx

/-- Witness for C7: live set {1}, store [1,2,9,3], deletion of 9 fails: only
[2] is emitted and deleted; 9 and 3 are untouched. -/
theorem gc_delete_failure_stops_witness :
    (GC ⟨[1, 2, 9, 3], [9], false⟩ ⟨[1], [], []⟩ dagSolo [] none 10).output = [2] ∧
    (9 : Key) ∉ (GC ⟨[1, 2, 9, 3], [9], false⟩ ⟨[1], [], []⟩ dagSolo [] none 10).deleted ∧
    (GC ⟨[1, 2, 9, 3], [9], false⟩ ⟨[1], [], []⟩ dagSolo [] none 10).lockReleased = true := by
  have hset : ColoredSet ⟨[1], [], []⟩ dagSolo 10 [] = Except.ok {1} := by
    simp [ColoredSet, Descendants, EnumerateChildren, DAG.get, dagSolo]
    decide
  have h := gc_delete_failure_stops ⟨[1, 2, 9, 3], [9], false⟩ ⟨[1], [], []⟩ dagSolo []
    10 {1} [1, 2] 9 [3] hset rfl rfl (by decide) (by decide) (by decide)
  refine ⟨?_, h.2.2.2.2.2.1, h.1⟩
  rw [h.2.2.1]; decide

/-- C8: with the live set built and the enumeration started, a pass cancelled
at any instant reports no error, closes the output channel and releases the
lock; once the cancellation is observed the sweep deletes and emits nothing
further; emissions stay duplicate-free, and every emitted key was deleted. -/
theorem gc_cancellation_safe (bs : BState) (pn : Pinner) (dag : DAG) (ber : List Cid)
    (cancelAt : Option Nat) (fuel : Nat) (gcs : Finset Key)
    (hset : ColoredSet pn dag fuel ber = Except.ok gcs)
    (henum : bs.allKeysFail = false) :
    (GC bs pn dag ber cancelAt fuel).err = none ∧
    (GC bs pn dag ber cancelAt fuel).outputClosed = true ∧
    (GC bs pn dag ber cancelAt fuel).lockReleased = true ∧
    (∀ t l, isCancelledAt cancelAt t = true → sweepGo gcs bs.failKeys cancelAt t l = ([], [])) ∧
    (bs.store.Nodup → (GC bs pn dag ber cancelAt fuel).output.Nodup ∧
      (GC bs pn dag ber cancelAt fuel).deleted.Nodup) ∧
    (∀ x ∈ (GC bs pn dag ber cancelAt fuel).output, x ∈ (GC bs pn dag ber cancelAt fuel).deleted) := by
  have hgc := GC_ok bs pn dag ber cancelAt fuel gcs hset henum
  refine ⟨by simp only [hgc], by simp only [hgc], by simp only [hgc],
    fun t l h => sweep_cancel_now gcs bs.failKeys cancelAt t l h, fun hnd => ?_, ?_⟩
  · constructor
    · simp only [hgc]
      exact List.Nodup.sublist (sweep_out_sublist gcs bs.failKeys cancelAt 0 bs.store) hnd
    · simp only [hgc]
      exact List.Nodup.sublist (sweep_del_sublist gcs bs.failKeys cancelAt 0 bs.store) hnd
  · intro x hx
    simp only [hgc] at hx ⊢
    exact sweep_out_sub_del gcs bs.failKeys cancelAt 0 bs.store x hx

/-- Witness for C8: cancellation observed at instant 0: the sweep deletes and
emits nothing, and GC reports no error. -/
theorem gc_cancellation_safe_witness :
    (GC ⟨[1, 2, 3], [], false⟩ ⟨[1], [], []⟩ dagSolo [] (some 0) 10).err = none ∧
    sweepGo ({1} : Finset Key) [] (some 0) 0 [1, 2, 3] = ([], []) := by
  have hset : ColoredSet ⟨[1], [], []⟩ dagSolo 10 [] = Except.ok {1} := by
    simp [ColoredSet, Descendants, EnumerateChildren, DAG.get, dagSolo]
    decide
  have h := gc_cancellation_safe ⟨[1, 2, 3], [], false⟩ ⟨[1], [], []⟩ dagSolo [] (some 0)
    10 {1} hset rfl
  exact ⟨h.1, h.2.2.2.1 0 [1, 2, 3] (by decide)⟩

/-- C9: the live set only grows during the mark phase — EnumerateChildren,
Descendants and the direct-key fold all contain their input set — and the sweep
reads it only through membership tests: sweeps over live sets with the same
members coincide. -/
theorem mark_monotone_sweep_readonly (dag : DAG) (be : Bool) (fuel : Nat) :
    (∀ (set : Finset Key) (L : List Cid), set ⊆ (EnumerateChildren dag be fuel set L).1) ∧
    (∀ (set : Finset Key) (roots : List Cid), set ⊆ (Descendants dag fuel set roots be).1) ∧
    (∀ (set : Finset Key) (l : List Cid), set ⊆ l.foldl (fun s c => insert (cidKey c) s) set) ∧
    (∀ (gcs gcs2 : Finset Key) (failKeys : List Key) (cancelAt : Option Nat)
      (l : List Key) (t : Nat), (∀ x, x ∈ gcs ↔ x ∈ gcs2) →
      sweepGo gcs failKeys cancelAt t l = sweepGo gcs2 failKeys cancelAt t l) :=
  ⟨fun set L => enum_mono dag be fuel set L,
   fun set roots => desc_mono dag fuel set roots be,
   fun set l => fold_insert_mono set l,
   fun gcs gcs2 failKeys cancelAt l t h => sweep_gcs_congr gcs gcs2 failKeys cancelAt h l t⟩

/-- Witness for C9 at concrete inputs. -/
theorem mark_monotone_sweep_readonly_witness :
    ({3} : Finset Key) ⊆ (EnumerateChildren dagAB false 5 {3} []).1 ∧
    ({3} : Finset Key) ⊆ (Descendants dagAB 5 {3} [1] false).1 ∧
    sweepGo ({1} : Finset Key) [] none 0 [1, 2] = sweepGo ({1} : Finset Key) [] none 0 [1, 2] := by
  have h := mark_monotone_sweep_readonly dagAB false 5
  exact ⟨h.1 {3} [], h.2.1 {3} [1], h.2.2.2 {1} {1} [] none [1, 2] 0 (fun x => Iff.rfl)⟩
